import Mathlib

/-!
Verification of the motion-detection filter in
`src/gpgpu-25-spring/src/filter_impl.cpp`.

Shallow embedding notes.

* `uint8_t` channel values are modelled as `ℕ` (the C type guarantees the
  range 0–255; claims that need the bound take it as a hypothesis).
  The C expression `p1.r - p2.r` is an `int` subtraction after integral
  promotion, so differences are modelled in `ℤ`.

* The stored background channels are C `float`s, but the only values ever
  assigned to them are 8-bit channel values (0–255), which `float`
  represents exactly, so `ℚ` is an exact model of the stored
  representation.  `uint8_t(float)` conversion truncates toward zero,
  which on the non-negative reachable values is the floor.

* `colorDistance` returns `sqrtf` of an integer `d2 ≤ 3·255² = 195075`,
  which is exactly representable in `float`.  Every use the program makes
  of this value is an order comparison against the integer constants
  25, 30, 4, 255, 0 or a `min`/`max` against another such value (the
  motion map is rewritten to 0/1 by the hysteresis pass before it can
  cross a frame boundary).  Since hardware `sqrtf` is correctly rounded
  and strictly monotone, `float(sqrt d2) ⋈ t ↔ d2 ⋈ t²` for every
  integer threshold `t`, and `Nat.sqrt d2` satisfies exactly the same
  equivalences; `min`/`max` commute with the monotone map
  `sqrt d2 ↦ Nat.sqrt d2` on the set of values that can meet.  The
  stored distance is therefore modelled observation-exactly by
  `Nat.sqrt d2` (as a `ℚ` motion-map entry, computed by the structural
  equivalent `natSqrt`).

* The frame buffer is modelled as a pixel grid (`List rgb`, index
  `y * width + x`); the byte-stride addressing of the C code is a memory
  layout detail that only selects which bytes form pixel `(x, y)`.
-/

/-- Three 8-bit colour channels (`struct rgb`). -/
structure rgb where
  r : ℕ
  g : ℕ
  b : ℕ
deriving DecidableEq

/-- Per-pixel persistent state (`struct PixelState`): float background
estimate per channel and the frames-since-reset counter (`int time`). -/
structure PixelState where
  bg_r : ℚ
  bg_g : ℚ
  bg_b : ℚ
  time : ℤ
deriving DecidableEq

/-- `uint8_t(f)` for a C `float`: truncation toward zero; on the
non-negative values that actually reach this conversion it is the floor. -/
def trunc8 (q : ℚ) : ℕ := ⌊q⌋.toNat

/-- The `rgb` value `{uint8_t(state.bg_r), uint8_t(state.bg_g),
uint8_t(state.bg_b)}` that the difference detector compares against. -/
def bgPixel (s : PixelState) : rgb := ⟨trunc8 s.bg_r, trunc8 s.bg_g, trunc8 s.bg_b⟩

/-- The squared colour distance computed inside `colorDistance` (the sum
under the square root, in exact `int` arithmetic). -/
def dist2 (p q : rgb) : ℤ :=
  ((p.r : ℤ) - (q.r : ℤ)) ^ 2 + ((p.g : ℤ) - (q.g : ℤ)) ^ 2 + ((p.b : ℤ) - (q.b : ℤ)) ^ 2

/-- Fuel-based integer square root (structural recursion, so that the
kernel can evaluate it; proved equal to `Nat.sqrt` below): largest `k`
with `k² ≤ n`, found by counting up while enough fuel remains. -/
def sqrtAux (fuel k n : ℕ) : ℕ :=
  match fuel with
  | 0 => k
  | fuel' + 1 => if (k + 1) * (k + 1) ≤ n then sqrtAux fuel' (k + 1) n else k

/-- Kernel-evaluable integer square root, equal to `Nat.sqrt`. -/
def natSqrt (n : ℕ) : ℕ := sqrtAux n 0 n

/-- The motion-map entry recorded for a squared distance `d2`
(observation-exact integer-resolution model of `sqrtf d2`, see header). -/
def distVal (d2 : ℤ) : ℚ := (natSqrt d2.toNat : ℚ)

/-- Read of `motion_mask[y * width + x]` (coordinates as `ℤ`, the C loop
indices' type; all reachable reads are in range). -/
def maskGet (m : List ℚ) (w : ℕ) (x y : ℤ) : ℚ := m.getD (y * w + x).toNat 0

/-- Column of linear position `i` (`x = i % width` in the C loops). -/
def colOf (w i : ℕ) : ℤ := (↑(i % w) : ℤ)

/-- Row of linear position `i` (`y = i / width` in the C loops). -/
def rowOf (w i : ℕ) : ℤ := (↑(i / w) : ℤ)

/-- The `(dy, dx)` offsets visited by the structuring-element double loop,
in source order (`dy` outer, `dx` inner), kept when `dx² + dy² ≤ r²`. -/
def diskOffsets (radius : ℕ) : List (ℤ × ℤ) :=
  (List.range (2 * radius + 1)).flatMap (fun (i : ℕ) =>
    (List.range (2 * radius + 1)).filterMap (fun (j : ℕ) =>
      let dy : ℤ := (i : ℤ) - radius
      let dx : ℤ := (j : ℤ) - radius
      if dx * dx + dy * dy ≤ (radius : ℤ) * radius then some (dy, dx) else none))

/-- Erosion inner loops: `min_val` starts at `255.0f` and accumulates
`min` over the disk around `(x, y)`. -/
def diskMin (m : List ℚ) (w radius : ℕ) (x y : ℤ) : ℚ :=
  (diskOffsets radius).foldl (fun acc d => min acc (maskGet m w (x + d.2) (y + d.1))) 255

/-- Dilation inner loops: `max_val` starts at `0.0f` and accumulates
`max` over the disk around `(x, y)`. -/
def diskMax (m : List ℚ) (w radius : ℕ) (x y : ℤ) : ℚ :=
  (diskOffsets radius).foldl (fun acc d => max acc (maskGet m w (x + d.2) (y + d.1))) 0

/-- Loop bounds of both morphology passes: `radius ≤ y < height - radius`,
`radius ≤ x < width - radius` (C `int` arithmetic, hence `ℤ`). -/
def isInterior (w h radius : ℕ) (x y : ℤ) : Prop :=
  (radius : ℤ) ≤ y ∧ y < (h : ℤ) - radius ∧ (radius : ℤ) ≤ x ∧ x < (w : ℤ) - radius

instance (w h radius : ℕ) (x y : ℤ) : Decidable (isInterior w h radius x y) := by
  unfold isInterior; infer_instance

/-- Erosion pass: interior pixels are replaced by the disk minimum read
from the snapshot `temp_mask` (= the unmodified input `m`); all other
pixels keep their input value. -/
def applyErosion (m : List ℚ) (w h radius : ℕ) : List ℚ :=
  (List.range (h * w)).map (fun i =>
    if isInterior w h radius (colOf w i) (rowOf w i)
    then diskMin m w radius (colOf w i) (rowOf w i) else m.getD i 0)

/-- Dilation pass: same bounds, disk maximum, snapshot taken after
erosion completes. -/
def applyDilation (m : List ℚ) (w h radius : ℕ) : List ℚ :=
  (List.range (h * w)).map (fun i =>
    if isInterior w h radius (colOf w i) (rowOf w i)
    then diskMax m w radius (colOf w i) (rowOf w i) else m.getD i 0)

/-- `applyMorphologicalOpening`: erosion then dilation. -/
def applyMorphologicalOpening (m : List ℚ) (w h radius : ℕ) : List ℚ :=
  applyDilation (applyErosion m w h radius) w h radius

/-- The nine `(dy, dx)` offsets of the hysteresis neighbour loop, in
source order (`dy` outer `-1..1`, `dx` inner `-1..1`). -/
def neighborOffsets : List (ℤ × ℤ) :=
  [(-1, -1), (-1, 0), (-1, 1), (0, -1), (0, 0), (0, 1), (1, -1), (1, 0), (1, 1)]

/-- The weak-pixel neighbour scan: some in-bounds neighbour of `(x, y)`
(including the pixel itself) currently holds a value `≥ high_thresh`.
Reads the mask as it stands mid-sweep, exactly as the C code does. -/
def strongNeighbor (m : List ℚ) (w h : ℕ) (x y : ℤ) (high : ℚ) : Bool :=
  neighborOffsets.any (fun d =>
    decide (0 ≤ y + d.1) && decide (y + d.1 < (h : ℤ)) && decide (0 ≤ x + d.2) &&
      decide (x + d.2 < (w : ℤ)) && decide (high ≤ maskGet m w (x + d.2) (y + d.1)))

/-- One iteration of the hysteresis sweep at linear position `i`
(`x = i % w`, `y = i / w`): strong pixels become 1, sub-`low` pixels 0,
weak pixels are resolved from the current (partially rewritten) mask. -/
def hystPixel (low high : ℚ) (w h : ℕ) (m : List ℚ) (i : ℕ) : List ℚ :=
  if high ≤ m.getD i 0 then m.set i 1
  else if m.getD i 0 < low then m.set i 0
  else if strongNeighbor m w h (colOf w i) (rowOf w i) high then m.set i 1
  else m.set i 0

/-- `applyHysteresisThresholding`: a single in-place left-to-right,
top-to-bottom sweep over all `height * width` positions. -/
def applyHysteresisThresholding (m : List ℚ) (w h : ℕ) (low high : ℚ) : List ℚ :=
  (List.range (h * w)).foldl (hystPixel low high w h) m

/-- The per-pixel body of the difference-detector loop: compare the pixel
against the truncated background estimate; distance below 25 only resets
the counter (the mask entry is NOT written); otherwise the distance is
recorded, the counter incremented and, past 100, the background adapts.
`distance < 25.0f ↔ d2 < 625` exactly (see header). -/
def updatePixelState (s : PixelState) (p : rgb) : PixelState × Option ℚ :=
  if dist2 p (bgPixel s) < 625 then ({ s with time := 0 }, none)
  else if 100 < s.time + 1 then
    (⟨(p.r : ℚ), (p.g : ℚ), (p.b : ℚ), 0⟩, some (distVal (dist2 p (bgPixel s))))
  else ({ s with time := s.time + 1 }, some (distVal (dist2 p (bgPixel s))))

/-- Global filter state: `pixel_states` and `motion_mask` vectors. -/
structure FilterState where
  pixel_states : List PixelState
  motion_mask : List ℚ
deriving DecidableEq

/-- First-frame seeding: `pixel_states.resize(width*height)` with zeroed
entries, then every background estimate is copied from the frame
(the counter stays 0). -/
def seedStates (frame : List rgb) (w h : ℕ) : List PixelState :=
  (List.range (h * w)).map (fun i =>
    let p := frame.getD i ⟨0, 0, 0⟩
    ⟨(p.r : ℚ), (p.g : ℚ), (p.b : ℚ), 0⟩)

/-- The difference-detector loop over all pixels: returns the updated
`pixel_states` and the motion map, where a pixel's entry is the recorded
distance if one was recorded and the incoming map's entry otherwise. -/
def differenceStep (states : List PixelState) (frame : List rgb) (mask : List ℚ) (w h : ℕ) :
    List PixelState × List ℚ :=
  ((List.range (h * w)).map (fun i =>
      (updatePixelState (states.getD i ⟨0, 0, 0, 0⟩) (frame.getD i ⟨0, 0, 0⟩)).1),
   (List.range (h * w)).map (fun i =>
      match (updatePixelState (states.getD i ⟨0, 0, 0, 0⟩) (frame.getD i ⟨0, 0, 0⟩)).2 with
      | some v => v
      | none => mask.getD i 0))

/-- The compositor loop: pixels whose final mask entry is `> 0.0f` get
`r = min(255, r + uint8_t(0.5f * 255))`; everything else is untouched. -/
def compositeStep (frame : List rgb) (mask : List ℚ) (w h : ℕ) : List rgb :=
  (List.range (h * w)).map (fun i =>
    let p := frame.getD i ⟨0, 0, 0⟩
    if 0 < mask.getD i 0 then { p with r := min 255 (p.r + trunc8 (0.5 * 255)) } else p)

/-- Lazy motion-map allocation: `motion_mask.resize(width*height, 0.0f)`
if it is still empty, otherwise the persisted map. -/
def maskOrInit (st : FilterState) (w h : ℕ) : List ℚ :=
  if st.motion_mask.isEmpty then List.replicate (w * h) 0 else st.motion_mask

/-- The final mask of a Running-state frame: difference detection into the
(lazily allocated) motion map, morphological opening with radius
`max(3, min(width, height) / 100)`, then hysteresis with thresholds
`low = 4.0`, `high = 30.0`. -/
def finalMask (st : FilterState) (frame : List rgb) (w h : ℕ) : List ℚ :=
  applyHysteresisThresholding
    (applyMorphologicalOpening
      (differenceStep st.pixel_states frame (maskOrInit st w h) w h).2
      w h (max 3 (min w h / 100)))
    w h 4 30

/-- A Running-state frame: detector (states update + mask), morphology,
hysteresis, compositor; the persistent state keeps the final mask. -/
def runningStep (st : FilterState) (frame : List rgb) (w h : ℕ) : FilterState × List rgb :=
  ({ pixel_states := (differenceStep st.pixel_states frame (maskOrInit st w h) w h).1,
     motion_mask := finalMask st frame w h },
   compositeStep frame (finalMask st frame w h) w h)

/-- The frame entry point `filter_impl`: seeds and returns on the first
frame (PixelState array empty); otherwise runs the Running-state pipeline.
Returns the new global state and the (possibly mutated) frame buffer. -/
def filter_impl (st : FilterState) (frame : List rgb) (w h : ℕ) : FilterState × List rgb :=
  if st.pixel_states.isEmpty then
    ({ pixel_states := seedStates frame w h, motion_mask := st.motion_mask }, frame)
  else runningStep st frame w h

/-- Run the filter from a fresh process state over a frame sequence,
keeping the persistent state. -/
def runFrames (frames : List (List rgb)) (w h : ℕ) : FilterState :=
  frames.foldl (fun st f => (filter_impl st f w h).1) ⟨[], []⟩

/-- Iterated per-pixel difference-detector updates over a sequence of
observed colours at one pixel position (mask output discarded). -/
def iterateDetect (s : PixelState) (ps : List rgb) : PixelState :=
  ps.foldl (fun s p => (updatePixelState s p).1) s

/-- The values inside the disk of radius `radius` around `(x, y)`. -/
def diskValues (m : List ℚ) (w radius : ℕ) (x y : ℤ) : List ℚ :=
  (diskOffsets radius).map (fun d => maskGet m w (x + d.2) (y + d.1))

/-- Modelled from the spec's words: "the minimum value found within a disk
of radius r centered on that pixel" — the genuine minimum over the disk
(the disk always contains its centre, so folding from the centre value
computes exactly the minimum of the disk's values). -/
def diskMinimumSpec (m : List ℚ) (w radius : ℕ) (x y : ℤ) : ℚ :=
  (diskValues m w radius x y).foldl min (maskGet m w x y)

/-- Whether some in-bounds 8-neighbour of linear position `i` that lies
STRICTLY LATER in the raster sweep order holds an (original) value
`≥ high`. -/
def laterStrong (m : List ℚ) (w h : ℕ) (i : ℕ) (high : ℚ) : Bool :=
  neighborOffsets.any (fun d =>
    decide (0 ≤ rowOf w i + d.1) && decide (rowOf w i + d.1 < (h : ℤ)) &&
      decide (0 ≤ colOf w i + d.2) && decide (colOf w i + d.2 < (w : ℤ)) &&
      decide ((i : ℤ) < (rowOf w i + d.1) * w + (colOf w i + d.2)) &&
      decide (high ≤ maskGet m w (colOf w i + d.2) (rowOf w i + d.1)))

/-- The value the in-place hysteresis sweep actually leaves at position
`i`: strong pixels 1, sub-`low` pixels 0, weak pixels 1 exactly when an
in-bounds 8-neighbour at a strictly later raster position has original
value `≥ high`. -/
def hystSpecVal (m : List ℚ) (w h : ℕ) (low high : ℚ) (i : ℕ) : ℚ :=
  if high ≤ m.getD i 0 then 1
  else if m.getD i 0 < low then 0
  else if laterStrong m w h i high then 1
  else 0

/-! ### Integer square root -/

theorem sqrtAux_correct : ∀ (fuel k n : ℕ), k * k ≤ n → n < (k + fuel + 1) * (k + fuel + 1) →
    sqrtAux fuel k n * sqrtAux fuel k n ≤ n ∧
    n < (sqrtAux fuel k n + 1) * (sqrtAux fuel k n + 1) := by
  intro fuel
  induction fuel with
  | zero =>
    intro k n hk hub
    exact ⟨hk, by simpa using hub⟩
  | succ fuel ih =>
    intro k n hk hub
    simp only [sqrtAux]
    by_cases hc : (k + 1) * (k + 1) ≤ n
    · rw [if_pos hc]
      refine ih (k + 1) n hc ?_
      have e : k + 1 + fuel + 1 = k + (fuel + 1) + 1 := by omega
      rw [e]
      exact hub
    · rw [if_neg hc]
      exact ⟨hk, Nat.lt_of_not_le hc⟩

theorem natSqrt_eq_sqrt (n : ℕ) : natSqrt n = Nat.sqrt n := by
  have hcor := sqrtAux_correct n 0 n (by omega) (by nlinarith)
  have h1 : natSqrt n ≤ Nat.sqrt n := Nat.le_sqrt.mpr hcor.1
  have h2 : Nat.sqrt n < natSqrt n + 1 := Nat.sqrt_lt.mpr hcor.2
  omega

/-! ### List helper lemmas -/

theorem getD_map_range {α : Type _} (n : ℕ) (f : ℕ → α) (i : ℕ) (d : α) :
    ((List.range n).map f).getD i d = if i < n then f i else d := by
  rcases lt_or_le i n with hc | hc
  · rw [List.getD_eq_getElem?_getD, List.getElem?_map, List.getElem?_range hc]
    simp [hc]
  · rw [List.getD_eq_getElem?_getD,
      List.getElem?_eq_none (by simpa [List.length_map, List.length_range] using hc)]
    simp [Nat.not_lt.mpr hc]

theorem getD_set (l : List ℚ) (i j : ℕ) (a : ℚ) :
    (l.set i a).getD j 0 = if i = j ∧ i < l.length then a else l.getD j 0 := by
  rw [List.getD_eq_getElem?_getD, List.getD_eq_getElem?_getD, List.getElem?_set]
  by_cases hij : i = j
  · subst hij
    by_cases hlen : i < l.length
    · simp [hlen]
    · rw [List.getElem?_eq_none (Nat.le_of_not_lt hlen)]
      simp [hlen]
  · simp [hij]

theorem list_any_congr {α : Type _} {p q : α → Bool} (l : List α) (hpq : ∀ a ∈ l, p a = q a) :
    l.any p = l.any q := by
  induction l with
  | nil => rfl
  | cons x t ih =>
    simp only [List.any_cons, hpq x (List.mem_cons_self x t),
      ih (fun a ha => hpq a (List.mem_cons_of_mem x ha))]

theorem foldl_min_le_init (l : List ℚ) (a : ℚ) : l.foldl min a ≤ a := by
  induction l generalizing a with
  | nil => simp
  | cons x t ih => exact le_trans (ih (min a x)) (min_le_left a x)

theorem foldl_min_le_mem (l : List ℚ) (a v : ℚ) (hv : v ∈ l) : l.foldl min a ≤ v := by
  induction l generalizing a with
  | nil => cases hv
  | cons x t ih =>
    rcases List.mem_cons.mp hv with rfl | hv'
    · exact le_trans (foldl_min_le_init t (min a v)) (min_le_right a v)
    · exact ih (min a x) hv'

theorem le_foldl_min (l : List ℚ) (a b : ℚ) (ha : b ≤ a) (hl : ∀ v ∈ l, b ≤ v) :
    b ≤ l.foldl min a := by
  induction l generalizing a with
  | nil => exact ha
  | cons x t ih =>
    exact ih (min a x) (le_min ha (hl x (List.mem_cons_self x t)))
      (fun v hv => hl v (List.mem_cons_of_mem x hv))

theorem foldl_min_eq_min_init (l : List ℚ) (a c : ℚ) (hc : c ∈ l) :
    l.foldl min a = min a (l.foldl min c) := by
  apply le_antisymm
  · exact le_min (foldl_min_le_init l a)
      (le_foldl_min l c _ (foldl_min_le_mem l a c hc) (foldl_min_le_mem l a))
  · exact le_foldl_min l a _ (min_le_left _ _)
      (fun v hv => le_trans (min_le_right _ _) (foldl_min_le_mem l c v hv))

theorem foldl_max_eq_init (l : List ℚ) (a : ℚ) (hl : ∀ v ∈ l, v ≤ a) : l.foldl max a = a := by
  induction l with
  | nil => rfl
  | cons x t ih =>
    rw [List.foldl_cons, max_eq_left (hl x (List.mem_cons_self x t))]
    exact ih (fun v hv => hl v (List.mem_cons_of_mem x hv))

/-! ### Disk geometry -/

theorem center_mem_diskOffsets (radius : ℕ) : ((0 : ℤ), (0 : ℤ)) ∈ diskOffsets radius := by
  have hmem : radius ∈ List.range (2 * radius + 1) := List.mem_range.mpr (by omega)
  unfold diskOffsets
  exact List.mem_flatMap.mpr ⟨radius, hmem,
    List.mem_filterMap.mpr ⟨radius, hmem, by simp [sub_self, mul_self_nonneg]⟩⟩

theorem center_mem_diskValues (m : List ℚ) (w radius : ℕ) (x y : ℤ) :
    maskGet m w x y ∈ diskValues m w radius x y := by
  unfold diskValues
  rw [List.mem_map]
  exact ⟨(0, 0), center_mem_diskOffsets radius, by simp⟩

theorem diskMin_eq_foldl (m : List ℚ) (w radius : ℕ) (x y : ℤ) :
    diskMin m w radius x y = (diskValues m w radius x y).foldl min 255 := by
  unfold diskMin diskValues
  rw [List.foldl_map]

theorem diskMax_eq_foldl (m : List ℚ) (w radius : ℕ) (x y : ℤ) :
    diskMax m w radius x y = (diskValues m w radius x y).foldl max 0 := by
  unfold diskMax diskValues
  rw [List.foldl_map]

theorem diskMin_eq_min_spec (m : List ℚ) (w radius : ℕ) (x y : ℤ) :
    diskMin m w radius x y = min 255 (diskMinimumSpec m w radius x y) := by
  rw [diskMin_eq_foldl]
  exact foldl_min_eq_min_init _ _ _ (center_mem_diskValues m w radius x y)

theorem applyErosion_getD (m : List ℚ) (w h radius : ℕ) (i : ℕ) (hi : i < h * w) :
    (applyErosion m w h radius).getD i 0 =
      if isInterior w h radius (colOf w i) (rowOf w i)
      then diskMin m w radius (colOf w i) (rowOf w i)
      else m.getD i 0 := by
  unfold applyErosion
  rw [getD_map_range]
  simp [hi]

/-! ### Hysteresis characterization: what the in-place sweep computes -/

theorem hystSpecVal_zero_or_one (m : List ℚ) (w h : ℕ) (low high : ℚ) (i : ℕ) :
    hystSpecVal m w h low high i = 0 ∨ hystSpecVal m w h low high i = 1 := by
  unfold hystSpecVal
  by_cases h1 : high ≤ m.getD i 0
  · rw [if_pos h1]; exact Or.inr rfl
  · rw [if_neg h1]
    by_cases h2 : m.getD i 0 < low
    · rw [if_pos h2]; exact Or.inl rfl
    · rw [if_neg h2]
      by_cases h3 : laterStrong m w h i high = true
      · rw [if_pos h3]; exact Or.inr rfl
      · rw [if_neg h3]; exact Or.inl rfl

theorem strongNeighbor_eq_laterStrong (m L : List ℚ) (w h : ℕ) (low high : ℚ)
    (hhigh : 1 < high) (k : ℕ)
    (hLk : ∀ j, L.getD j 0 = if j < k then hystSpecVal m w h low high j else m.getD j 0)
    (hweak : ¬ high ≤ m.getD k 0) :
    strongNeighbor L w h (colOf w k) (rowOf w k) high = laterStrong m w h k high := by
  unfold strongNeighbor laterStrong
  apply list_any_congr
  intro d _
  dsimp only
  rw [Bool.eq_iff_iff]
  simp only [Bool.and_eq_true, decide_eq_true_eq, and_assoc]
  have hspec_le : ∀ j, hystSpecVal m w h low high j ≤ 1 := by
    intro j
    rcases hystSpecVal_zero_or_one m w h low high j with hz | ho
    · rw [hz]; norm_num
    · rw [ho]
  have hmg : maskGet L w (colOf w k + d.2) (rowOf w k + d.1) =
      L.getD ((rowOf w k + d.1) * (w : ℤ) + (colOf w k + d.2)).toNat 0 := rfl
  have hmgm : maskGet m w (colOf w k + d.2) (rowOf w k + d.1) =
      m.getD ((rowOf w k + d.1) * (w : ℤ) + (colOf w k + d.2)).toNat 0 := rfl
  obtain ⟨n, hn⟩ : ∃ n : ℤ, (rowOf w k + d.1) * (w : ℤ) + (colOf w k + d.2) = n := ⟨_, rfl⟩
  rw [hn] at hmg hmgm
  constructor
  · rintro ⟨h1, h2, h3, h4, h5⟩
    refine ⟨h1, h2, h3, h4, ?_⟩
    have hnn : (0 : ℤ) ≤ n := by
      rw [← hn]
      exact add_nonneg (mul_nonneg h1 (by positivity)) h3
    rw [hmg, hLk n.toNat] at h5
    rcases lt_trichotomy n.toNat k with hlt | heq | hgt
    · rw [if_pos hlt] at h5
      exact absurd (le_trans h5 (hspec_le n.toNat)) (by linarith)
    · rw [if_neg (by omega), heq] at h5
      exact absurd h5 hweak
    · rw [if_neg (by omega)] at h5
      rw [hn, hmgm]
      exact ⟨by omega, h5⟩
  · rintro ⟨h1, h2, h3, h4, hgt, h5⟩
    refine ⟨h1, h2, h3, h4, ?_⟩
    have hnn : (0 : ℤ) ≤ n := by
      rw [← hn]
      exact add_nonneg (mul_nonneg h1 (by positivity)) h3
    rw [hn] at hgt
    rw [hmgm] at h5
    rw [hmg, hLk n.toNat, if_neg (by omega)]
    exact h5

theorem hystPixel_length (low high : ℚ) (w h : ℕ) (m : List ℚ) (i : ℕ) :
    (hystPixel low high w h m i).length = m.length := by
  unfold hystPixel
  by_cases h1 : high ≤ m.getD i 0
  · rw [if_pos h1, List.length_set]
  · rw [if_neg h1]
    by_cases h2 : m.getD i 0 < low
    · rw [if_pos h2, List.length_set]
    · rw [if_neg h2]
      by_cases h3 : strongNeighbor m w h (colOf w i) (rowOf w i) high = true
      · rw [if_pos h3, List.length_set]
      · rw [if_neg h3, List.length_set]

theorem hystSweepInvariant (m : List ℚ) (w h : ℕ) (low high : ℚ) (hhigh : 1 < high)
    (hlen : m.length = h * w) :
    ∀ k, k ≤ h * w →
      ((List.range k).foldl (hystPixel low high w h) m).length = h * w ∧
      ∀ j, ((List.range k).foldl (hystPixel low high w h) m).getD j 0 =
        if j < k then hystSpecVal m w h low high j else m.getD j 0 := by
  intro k
  induction k with
  | zero => intro _; simpa using hlen
  | succ k ih =>
    intro hk1
    have hk : k < h * w := hk1
    obtain ⟨ihl, ihg⟩ := ih (le_of_lt hk)
    rw [List.range_succ, List.foldl_append, List.foldl_cons, List.foldl_nil]
    set L := (List.range k).foldl (hystPixel low high w h) m with hL
    have hvk : L.getD k 0 = m.getD k 0 := by rw [ihg k]; simp
    have hstep : ∀ a : ℚ, a = hystSpecVal m w h low high k →
        ∀ j, (L.set k a).getD j 0 =
          if j < k + 1 then hystSpecVal m w h low high j else m.getD j 0 := by
      intro a ha j
      rw [getD_set]
      by_cases hj : k = j
      · subst hj
        rw [if_pos ⟨rfl, by rw [ihl]; exact hk⟩, if_pos (Nat.lt_succ_self k)]
        exact ha
      · rw [if_neg (fun hcon => hj hcon.1), ihg j]
        by_cases hjk : j < k
        · rw [if_pos hjk, if_pos (Nat.lt_succ_of_lt hjk)]
        · rw [if_neg hjk, if_neg (by omega)]
    have hslen : ∀ a : ℚ, (L.set k a).length = h * w := by
      intro a; rw [List.length_set, ihl]
    by_cases hstrong : high ≤ m.getD k 0
    · have hA : hystPixel low high w h L k = L.set k 1 := by
        unfold hystPixel
        rw [hvk, if_pos hstrong]
      rw [hA]
      refine ⟨hslen 1, hstep 1 ?_⟩
      unfold hystSpecVal
      rw [if_pos hstrong]
    · by_cases hlow : m.getD k 0 < low
      · have hB : hystPixel low high w h L k = L.set k 0 := by
          unfold hystPixel
          rw [hvk, if_neg hstrong, if_pos hlow]
        rw [hB]
        refine ⟨hslen 0, hstep 0 ?_⟩
        unfold hystSpecVal
        rw [if_neg hstrong, if_pos hlow]
      · have hsn := strongNeighbor_eq_laterStrong m L w h low high hhigh k ihg hstrong
        by_cases hls : laterStrong m w h k high = true
        · have hC : hystPixel low high w h L k = L.set k 1 := by
            unfold hystPixel
            rw [hvk, if_neg hstrong, if_neg hlow, if_pos (hsn.trans hls)]
          rw [hC]
          refine ⟨hslen 1, hstep 1 ?_⟩
          unfold hystSpecVal
          rw [if_neg hstrong, if_neg hlow, if_pos hls]
        · have hD : hystPixel low high w h L k = L.set k 0 := by
            unfold hystPixel
            rw [hvk, if_neg hstrong, if_neg hlow,
              if_neg (fun hcon => hls (hsn.symm.trans hcon))]
          rw [hD]
          refine ⟨hslen 0, hstep 0 ?_⟩
          unfold hystSpecVal
          rw [if_neg hstrong, if_neg hlow, if_neg hls]

theorem hyst_char (m : List ℚ) (w h : ℕ) (low high : ℚ) (hhigh : 1 < high)
    (hlen : m.length = h * w) (i : ℕ) (hi : i < h * w) :
    (applyHysteresisThresholding m w h low high).getD i 0 = hystSpecVal m w h low high i := by
  have hp := (hystSweepInvariant m w h low high hhigh hlen (h * w) le_rfl).2 i
  unfold applyHysteresisThresholding
  rw [hp, if_pos hi]

theorem applyDilation_getD (m : List ℚ) (w h radius : ℕ) (i : ℕ) (hi : i < h * w) :
    (applyDilation m w h radius).getD i 0 =
      if isInterior w h radius (colOf w i) (rowOf w i)
      then diskMax m w radius (colOf w i) (rowOf w i)
      else m.getD i 0 := by
  unfold applyDilation
  rw [getD_map_range]
  simp [hi]

/-! ### Pipeline helper lemmas -/

theorem trunc8_natCast (n : ℕ) : trunc8 (n : ℚ) = n := by
  unfold trunc8
  rw [Int.floor_natCast]
  exact Int.toNat_natCast n

theorem bgPixel_of_natCast (p : rgb) :
    bgPixel ⟨(p.r : ℚ), (p.g : ℚ), (p.b : ℚ), 0⟩ = p := by
  unfold bgPixel
  simp only [trunc8_natCast]

theorem getD_default_of_le {α : Type _} (l : List α) (i : ℕ) (d : α) (hge : l.length ≤ i) :
    l.getD i d = d := by
  rw [List.getD_eq_getElem?_getD, List.getElem?_eq_none hge]
  rfl

theorem getD_mem_of_lt {α : Type _} (l : List α) (i : ℕ) (d : α) (hi : i < l.length) :
    l.getD i d ∈ l := by
  rw [List.getD_eq_getElem?_getD, List.getElem?_eq_getElem hi]
  exact List.getElem_mem hi

theorem seedStates_getD (frame : List rgb) (w h : ℕ) (i : ℕ) (hi : i < h * w) :
    (seedStates frame w h).getD i ⟨0, 0, 0, 0⟩ =
      ⟨((frame.getD i ⟨0, 0, 0⟩).r : ℚ), ((frame.getD i ⟨0, 0, 0⟩).g : ℚ),
       ((frame.getD i ⟨0, 0, 0⟩).b : ℚ), 0⟩ := by
  unfold seedStates
  rw [getD_map_range, if_pos hi]

theorem length_seedStates (frame : List rgb) (w h : ℕ) :
    (seedStates frame w h).length = h * w := by
  unfold seedStates
  rw [List.length_map, List.length_range]

theorem differenceStep_states_getD (states : List PixelState) (frame : List rgb)
    (mask : List ℚ) (w h : ℕ) (i : ℕ) (hi : i < h * w) :
    (differenceStep states frame mask w h).1.getD i ⟨0, 0, 0, 0⟩ =
      (updatePixelState (states.getD i ⟨0, 0, 0, 0⟩) (frame.getD i ⟨0, 0, 0⟩)).1 := by
  unfold differenceStep
  rw [getD_map_range, if_pos hi]

theorem differenceStep_mask_getD (states : List PixelState) (frame : List rgb)
    (mask : List ℚ) (w h : ℕ) (i : ℕ) (hi : i < h * w) :
    (differenceStep states frame mask w h).2.getD i 0 =
      if 625 ≤ dist2 (frame.getD i ⟨0, 0, 0⟩) (bgPixel (states.getD i ⟨0, 0, 0, 0⟩))
      then distVal (dist2 (frame.getD i ⟨0, 0, 0⟩) (bgPixel (states.getD i ⟨0, 0, 0, 0⟩)))
      else mask.getD i 0 := by
  unfold differenceStep
  rw [getD_map_range, if_pos hi]
  unfold updatePixelState
  by_cases hd : dist2 (frame.getD i ⟨0, 0, 0⟩) (bgPixel (states.getD i ⟨0, 0, 0, 0⟩)) < 625
  · rw [if_pos hd, if_neg (not_le.mpr hd)]
  · rw [if_neg hd, if_pos (not_lt.mp hd)]
    by_cases ht : 100 < (states.getD i ⟨0, 0, 0, 0⟩).time + 1
    · rw [if_pos ht]
    · rw [if_neg ht]

theorem length_differenceStep_mask (states : List PixelState) (frame : List rgb)
    (mask : List ℚ) (w h : ℕ) :
    (differenceStep states frame mask w h).2.length = h * w := by
  unfold differenceStep
  rw [List.length_map, List.length_range]

theorem length_applyErosion (m : List ℚ) (w h radius : ℕ) :
    (applyErosion m w h radius).length = h * w := by
  unfold applyErosion
  rw [List.length_map, List.length_range]

theorem length_applyDilation (m : List ℚ) (w h radius : ℕ) :
    (applyDilation m w h radius).length = h * w := by
  unfold applyDilation
  rw [List.length_map, List.length_range]

theorem mem_diskValues (m : List ℚ) (w radius : ℕ) (x y : ℤ) (v : ℚ)
    (hv : v ∈ diskValues m w radius x y) :
    ∃ d : ℤ × ℤ, v = maskGet m w (x + d.2) (y + d.1) := by
  unfold diskValues at hv
  obtain ⟨d, _, hd⟩ := List.mem_map.mp hv
  exact ⟨d, hd.symm⟩

theorem applyErosion_zero (m : List ℚ) (w h radius : ℕ) (hz : ∀ i, m.getD i 0 = 0) :
    ∀ i, (applyErosion m w h radius).getD i 0 = 0 := by
  intro i
  rcases lt_or_le i (h * w) with hi | hi
  · rw [applyErosion_getD m w h radius i hi]
    by_cases hint : isInterior w h radius (colOf w i) (rowOf w i)
    · rw [if_pos hint]
      have hvals : ∀ v ∈ diskValues m w radius (colOf w i) (rowOf w i), v = 0 := by
        intro v hv
        obtain ⟨d, hd⟩ := mem_diskValues m w radius _ _ v hv
        rw [hd]
        exact hz _
      rw [diskMin_eq_foldl]
      apply le_antisymm
      · have hc := center_mem_diskValues m w radius (colOf w i) (rowOf w i)
        have := foldl_min_le_mem (diskValues m w radius (colOf w i) (rowOf w i)) 255 _ hc
        calc (diskValues m w radius (colOf w i) (rowOf w i)).foldl min 255
            ≤ maskGet m w (colOf w i) (rowOf w i) := this
          _ = 0 := hz _
      · exact le_foldl_min _ _ _ (by norm_num) (fun v hv => le_of_eq (hvals v hv).symm)
    · rw [if_neg hint]
      exact hz i
  · exact getD_default_of_le _ _ _ (by rw [length_applyErosion]; exact hi)

theorem applyDilation_zero (m : List ℚ) (w h radius : ℕ) (hz : ∀ i, m.getD i 0 = 0) :
    ∀ i, (applyDilation m w h radius).getD i 0 = 0 := by
  intro i
  rcases lt_or_le i (h * w) with hi | hi
  · rw [applyDilation_getD m w h radius i hi]
    by_cases hint : isInterior w h radius (colOf w i) (rowOf w i)
    · rw [if_pos hint, diskMax_eq_foldl]
      apply foldl_max_eq_init
      intro v hv
      obtain ⟨d, hd⟩ := mem_diskValues m w radius _ _ v hv
      rw [hd]
      exact le_of_eq (hz _)
    · rw [if_neg hint]
      exact hz i
  · exact getD_default_of_le _ _ _ (by rw [length_applyDilation]; exact hi)

theorem hystPixel_zero (low high : ℚ) (w h : ℕ) (m : List ℚ) (a : ℕ)
    (hlow : 0 < low) (hhigh : 0 < high) (hz : ∀ i, m.getD i 0 = 0) :
    ∀ i, (hystPixel low high w h m a).getD i 0 = 0 := by
  intro i
  unfold hystPixel
  rw [hz a, if_neg (not_le.mpr hhigh), if_pos hlow, getD_set]
  by_cases hc : a = i ∧ a < m.length
  · rw [if_pos hc]
  · rw [if_neg hc]
    exact hz i

theorem applyHysteresisThresholding_zero (m : List ℚ) (w h : ℕ) (low high : ℚ)
    (hlow : 0 < low) (hhigh : 0 < high) (hz : ∀ i, m.getD i 0 = 0) :
    ∀ i, (applyHysteresisThresholding m w h low high).getD i 0 = 0 := by
  unfold applyHysteresisThresholding
  have key : ∀ (l : List ℕ) (mm : List ℚ), (∀ i, mm.getD i 0 = 0) →
      ∀ i, (l.foldl (hystPixel low high w h) mm).getD i 0 = 0 := by
    intro l
    induction l with
    | nil => intro mm hmm i; exact hmm i
    | cons a t ih =>
      intro mm hmm i
      rw [List.foldl_cons]
      exact ih (hystPixel low high w h mm a) (hystPixel_zero low high w h mm a hlow hhigh hmm) i
  exact key (List.range (h * w)) m hz

theorem laterStrong_mono (m : List ℚ) (w h : ℕ) (i : ℕ) (t1 t2 : ℚ) (hle : t1 ≤ t2)
    (h2 : laterStrong m w h i t2 = true) : laterStrong m w h i t1 = true := by
  unfold laterStrong at h2 ⊢
  rw [List.any_eq_true] at h2 ⊢
  obtain ⟨d, hd, hprop⟩ := h2
  simp only [Bool.and_eq_true, decide_eq_true_eq] at hprop
  refine ⟨d, hd, ?_⟩
  simp only [Bool.and_eq_true, decide_eq_true_eq]
  exact ⟨hprop.1, le_trans hle hprop.2⟩

theorem compositeStep_getD (frame : List rgb) (mask : List ℚ) (w h : ℕ) (i : ℕ)
    (hi : i < h * w) :
    (compositeStep frame mask w h).getD i ⟨0, 0, 0⟩ =
      if 0 < mask.getD i 0
      then { frame.getD i ⟨0, 0, 0⟩ with
             r := min 255 ((frame.getD i ⟨0, 0, 0⟩).r + trunc8 (0.5 * 255)) }
      else frame.getD i ⟨0, 0, 0⟩ := by
  unfold compositeStep
  rw [getD_map_range, if_pos hi]

theorem filter_impl_running (st : FilterState) (frame : List rgb) (w h : ℕ)
    (hne : st.pixel_states ≠ []) :
    filter_impl st frame w h = runningStep st frame w h := by
  unfold filter_impl
  rw [if_neg (fun hcon => hne (List.isEmpty_iff.mp hcon))]

/-! ### Claim C1 -/

/-- C1 (counterexample): in the map `[35, 10]` of a 2×1 frame, pixel 1 is
weak (4 ≤ 10 < 30) and its 8-neighbour pixel 0 has original pre-sweep
value 35 ≥ 30, yet the sweep leaves pixel 1 at 0 — the claim's predicted
promotion (driven by the neighbour's pre-sweep value) does not happen,
because that neighbour was already rewritten to 1 < 30 earlier in the
same sweep. -/
theorem C1_counterexample :
    (4 ≤ ([35, 10] : List ℚ).getD 1 0 ∧ ([35, 10] : List ℚ).getD 1 0 < 30) ∧
    (30 : ℚ) ≤ ([35, 10] : List ℚ).getD 0 0 ∧
    (applyHysteresisThresholding [35, 10] 2 1 4 30).getD 1 0 = 0 := by decide

/-- C1 (amended): in the single in-place sweep with `low = 4`, `high = 30`,
a weak pixel (value in `[4, 30)`) is promoted to 1 exactly when some
in-bounds 8-neighbour at a STRICTLY LATER raster position has original
value ≥ 30; neighbours visited earlier in the sweep never contribute,
since they were rewritten to 0 or 1, both < 30. -/
theorem C1_weak_promotion (m : List ℚ) (w h : ℕ) (hlen : m.length = h * w)
    (i : ℕ) (hi : i < h * w) (hlo : 4 ≤ m.getD i 0) (hhi : m.getD i 0 < 30) :
    (applyHysteresisThresholding m w h 4 30).getD i 0 =
      if laterStrong m w h i 30 then 1 else 0 := by
  rw [hyst_char m w h 4 30 (by norm_num) hlen i hi]
  unfold hystSpecVal
  rw [if_neg (not_le.mpr hhi), if_neg (not_lt.mpr hlo)]

/-- C1 witness: the amended theorem applied to the concrete weak pixel 0 of
`[10, 35]` (promoted by its later strong neighbour). -/
theorem C1_weak_promotion_witness :
    (applyHysteresisThresholding [10, 35] 2 1 4 30).getD 0 0 =
      if laterStrong [10, 35] 2 1 0 30 then 1 else 0 :=
  C1_weak_promotion [10, 35] 2 1 (by decide) 0 (by decide) (by decide) (by decide)

/-! ### Claim C3 -/

set_option maxRecDepth 100000 in
/-- C3 (counterexample): a 7×7 map holding 300 everywhere, radius 3: the
centre pixel (linear index 24) is interior and the true disk minimum is
300, but erosion outputs 255 — `min_val` starts at `255.0f`, so
intensities above 255 are clamped and the output is NOT the disk minimum. -/
theorem C3_counterexample :
    isInterior 7 7 3 (colOf 7 24) (rowOf 7 24) ∧
    diskMinimumSpec (List.replicate 49 (300 : ℚ)) 7 3 (colOf 7 24) (rowOf 7 24) = 300 ∧
    (applyErosion (List.replicate 49 (300 : ℚ)) 7 7 3).getD 24 0 = 255 := by decide

/-- C3 (amended): erosion gives every interior pixel
`min(255, disk minimum)` read from the pre-erosion snapshot — equal to
the true disk minimum whenever that minimum is ≤ 255, but clamped for
larger intensities; border pixels are not modified by the pass. -/
theorem C3_erosion_minimum (m : List ℚ) (w h radius : ℕ) (i : ℕ) (hi : i < h * w) :
    (isInterior w h radius (colOf w i) (rowOf w i) →
      (applyErosion m w h radius).getD i 0 =
        min 255 (diskMinimumSpec m w radius (colOf w i) (rowOf w i)) ∧
      (diskMinimumSpec m w radius (colOf w i) (rowOf w i) ≤ 255 →
        (applyErosion m w h radius).getD i 0 =
          diskMinimumSpec m w radius (colOf w i) (rowOf w i))) ∧
    (¬ isInterior w h radius (colOf w i) (rowOf w i) →
      (applyErosion m w h radius).getD i 0 = m.getD i 0) := by
  constructor
  · intro hint
    rw [applyErosion_getD m w h radius i hi, if_pos hint, diskMin_eq_min_spec]
    exact ⟨rfl, fun hle => min_eq_right hle⟩
  · intro hint
    rw [applyErosion_getD m w h radius i hi, if_neg hint]

set_option maxRecDepth 100000 in
/-- C3 witness: the amended theorem applied to a 7×7 all-20 map — the
interior centre pixel erodes to the true disk minimum 20. -/
theorem C3_erosion_minimum_witness :
    (applyErosion (List.replicate 49 (20 : ℚ)) 7 7 3).getD 24 0 = 20 := by
  have hc := (C3_erosion_minimum (List.replicate 49 (20 : ℚ)) 7 7 3 24 (by norm_num)).1
    (by decide)
  rw [hc.2 (by decide)]
  decide

/-! ### Claim C4 -/

/-- C4 (counterexample): on the 1×1 map `[35]` with `low = 4`, the pixel
has final value 1 at `high = 30` but final value 0 at `high = 50`: raising
`high` DOES convert a pixel that was strong (final value 1) at the lower
threshold into absent (final value 0). -/
theorem C4_counterexample :
    (4 : ℚ) ≤ 30 ∧ (30 : ℚ) ≤ 50 ∧
    (applyHysteresisThresholding [35] 1 1 4 30).getD 0 0 = 1 ∧
    (applyHysteresisThresholding [35] 1 1 4 50).getD 0 0 = 0 := by decide

/-- C4 (amended): the final mask is antitone in `high` in the opposite
direction: raising `high` never converts an absent pixel into strong —
every pixel with final value 1 at the higher threshold already had final
value 1 at the lower threshold (the strong set only shrinks as `high`
grows). -/
theorem C4_mask_antitone (m : List ℚ) (w h : ℕ) (low high1 high2 : ℚ)
    (h1 : 1 < high1) (h12 : high1 ≤ high2) (hlen : m.length = h * w)
    (i : ℕ) (hi : i < h * w)
    (hs2 : (applyHysteresisThresholding m w h low high2).getD i 0 = 1) :
    (applyHysteresisThresholding m w h low high1).getD i 0 = 1 := by
  rw [hyst_char m w h low high2 (lt_of_lt_of_le h1 h12) hlen i hi] at hs2
  rw [hyst_char m w h low high1 h1 hlen i hi]
  unfold hystSpecVal at hs2 ⊢
  by_cases hA2 : high2 ≤ m.getD i 0
  · rw [if_pos (le_trans h12 hA2)]
  · rw [if_neg hA2] at hs2
    by_cases hB : m.getD i 0 < low
    · rw [if_pos hB] at hs2
      norm_num at hs2
    · rw [if_neg hB] at hs2
      by_cases hC : laterStrong m w h i high2 = true
      · by_cases hA1 : high1 ≤ m.getD i 0
        · rw [if_pos hA1]
        · rw [if_neg hA1, if_neg hB, if_pos (laterStrong_mono m w h i high1 high2 h12 hC)]
      · rw [if_neg hC] at hs2
        norm_num at hs2

/-- C4 witness: the amended theorem at `[10, 35]`, `high1 = 30 ≤ high2 = 32`:
pixel 0 is 1 at the higher threshold, hence 1 at the lower one. -/
theorem C4_mask_antitone_witness :
    (applyHysteresisThresholding [10, 35] 2 1 4 30).getD 0 0 = 1 :=
  C4_mask_antitone [10, 35] 2 1 4 30 32 (by norm_num) (by norm_num) (by decide) 0
    (by norm_num) (by decide)

/-! ### Claim C2 -/

/-- C2 (counterexample): 1×1 frames — frame 1 all-black seeds the model,
frame 2 is red (mask becomes [1] after hysteresis), frame 3 is black
again: its distance to the background is 0 < 625 (= 25²), so per the
claim the post-detector mask value should be 0, yet the detector leaves
the previous frame's value 1 in place (it never writes the `< 25` case). -/
theorem C2_counterexample :
    dist2 ((⟨0, 0, 0⟩ : rgb))
        (bgPixel ((runFrames [[⟨0, 0, 0⟩], [⟨200, 0, 0⟩]] 1 1).pixel_states.getD 0
          ⟨0, 0, 0, 0⟩)) < 625 ∧
    (differenceStep (runFrames [[⟨0, 0, 0⟩], [⟨200, 0, 0⟩]] 1 1).pixel_states
        [⟨0, 0, 0⟩] (maskOrInit (runFrames [[⟨0, 0, 0⟩], [⟨200, 0, 0⟩]] 1 1) 1 1)
        1 1).2.getD 0 0 = 1 := by decide

/-- C2 (amended): on a Running-state frame the Difference Detector writes
the measured distance at pixels whose squared distance is ≥ 625 (i.e.
distance ≥ 25.0) and RETAINS the incoming motion-map entry (the previous
frame's final mask value, or 0 on the first Running frame) at all other
pixels — the map is not fully overwritten. -/
theorem C2_detector_mask (st : FilterState) (frame : List rgb) (w h : ℕ)
    (i : ℕ) (hi : i < h * w) :
    (differenceStep st.pixel_states frame (maskOrInit st w h) w h).2.getD i 0 =
      if 625 ≤ dist2 (frame.getD i ⟨0, 0, 0⟩) (bgPixel (st.pixel_states.getD i ⟨0, 0, 0, 0⟩))
      then distVal (dist2 (frame.getD i ⟨0, 0, 0⟩)
             (bgPixel (st.pixel_states.getD i ⟨0, 0, 0, 0⟩)))
      else (maskOrInit st w h).getD i 0 :=
  differenceStep_mask_getD st.pixel_states frame (maskOrInit st w h) w h i hi

/-- C2 witness: the amended theorem at the concrete frame-3 state of the
counterexample scenario (the retained entry is the previous mask's 1). -/
theorem C2_detector_mask_witness :
    (differenceStep (runFrames [[⟨0, 0, 0⟩], [⟨200, 0, 0⟩]] 1 1).pixel_states
        [⟨0, 0, 0⟩] (maskOrInit (runFrames [[⟨0, 0, 0⟩], [⟨200, 0, 0⟩]] 1 1) 1 1)
        1 1).2.getD 0 0 =
      if 625 ≤ dist2 (([⟨0, 0, 0⟩] : List rgb).getD 0 ⟨0, 0, 0⟩)
          (bgPixel ((runFrames [[⟨0, 0, 0⟩], [⟨200, 0, 0⟩]] 1 1).pixel_states.getD 0
            ⟨0, 0, 0, 0⟩))
      then distVal (dist2 (([⟨0, 0, 0⟩] : List rgb).getD 0 ⟨0, 0, 0⟩)
             (bgPixel ((runFrames [[⟨0, 0, 0⟩], [⟨200, 0, 0⟩]] 1 1).pixel_states.getD 0
               ⟨0, 0, 0, 0⟩)))
      else (maskOrInit (runFrames [[⟨0, 0, 0⟩], [⟨200, 0, 0⟩]] 1 1) 1 1).getD 0 0 :=
  C2_detector_mask (runFrames [[⟨0, 0, 0⟩], [⟨200, 0, 0⟩]] 1 1) [⟨0, 0, 0⟩] 1 1 0
    (by norm_num)

/-! ### Claim C5 -/

/-- C5 (confirmed): on the very first frame (PixelState array empty) the
call seeds every pixel's background estimate to exactly that frame's
colour with counter 0, leaves the motion mask untouched (no mask is
produced), and returns the frame buffer unmodified. -/
theorem C5_cold_start (st : FilterState) (frame : List rgb) (w h : ℕ)
    (hempty : st.pixel_states = []) :
    (filter_impl st frame w h).2 = frame ∧
    (filter_impl st frame w h).1.motion_mask = st.motion_mask ∧
    ∀ i, i < h * w →
      (filter_impl st frame w h).1.pixel_states.getD i ⟨0, 0, 0, 0⟩ =
        ⟨((frame.getD i ⟨0, 0, 0⟩).r : ℚ), ((frame.getD i ⟨0, 0, 0⟩).g : ℚ),
         ((frame.getD i ⟨0, 0, 0⟩).b : ℚ), 0⟩ := by
  unfold filter_impl
  rw [if_pos (List.isEmpty_iff.mpr hempty)]
  exact ⟨rfl, rfl, fun i hi => seedStates_getD frame w h i hi⟩

/-- C5 witness: the theorem at a concrete 1×1 first frame. -/
theorem C5_cold_start_witness :
    (filter_impl ⟨[], []⟩ [⟨1, 2, 3⟩] 1 1).2 = [⟨1, 2, 3⟩] ∧
    (filter_impl ⟨[], []⟩ [⟨1, 2, 3⟩] 1 1).1.motion_mask = [] ∧
    (filter_impl ⟨[], []⟩ [⟨1, 2, 3⟩] 1 1).1.pixel_states.getD 0 ⟨0, 0, 0, 0⟩ =
      ⟨1, 2, 3, 0⟩ := by
  have hc := C5_cold_start ⟨[], []⟩ [⟨1, 2, 3⟩] 1 1 rfl
  refine ⟨hc.1, hc.2.1, ?_⟩
  rw [hc.2.2 0 (by norm_num)]
  decide

/-! ### Claim C7 -/

/-- C7 (confirmed): on a Running-state frame, a pixel whose final mask
value is non-zero gets its red channel increased by the fixed amount
`uint8_t(0.5f * 255) = 127` with the sum clamped at 255, green and blue
unchanged; a pixel with mask value 0 is entirely unchanged; the output
frame is exactly the compositor's image of the input frame (no other
pipeline stage writes to the frame buffer). -/
theorem C7_compositor (st : FilterState) (frame : List rgb) (w h : ℕ)
    (hne : st.pixel_states ≠ []) (i : ℕ) (hi : i < h * w) :
    (filter_impl st frame w h).2 =
      compositeStep frame (filter_impl st frame w h).1.motion_mask w h ∧
    trunc8 (0.5 * 255) = 127 ∧
    ((filter_impl st frame w h).2.getD i ⟨0, 0, 0⟩ =
      (if 0 < (filter_impl st frame w h).1.motion_mask.getD i 0
       then { frame.getD i ⟨0, 0, 0⟩ with
              r := min 255 ((frame.getD i ⟨0, 0, 0⟩).r + 127) }
       else frame.getD i ⟨0, 0, 0⟩)) := by
  rw [filter_impl_running st frame w h hne]
  have h127 : trunc8 (0.5 * 255) = 127 := by
    unfold trunc8
    norm_num
    decide
  refine ⟨rfl, h127, ?_⟩
  show (compositeStep frame (finalMask st frame w h) w h).getD i ⟨0, 0, 0⟩ = _
  rw [compositeStep_getD frame (finalMask st frame w h) w h i hi, h127]
  rfl

/-- C7 witness: the theorem at a concrete Running-state frame — the 1×1
red frame 2 after the black seeding frame: the mask is 1, the red channel
saturates at 255, green and blue stay 0. -/
theorem C7_compositor_witness :
    (filter_impl (runFrames [[⟨0, 0, 0⟩]] 1 1) [⟨200, 0, 0⟩] 1 1).2.getD 0 ⟨0, 0, 0⟩ =
      (if 0 < (filter_impl (runFrames [[⟨0, 0, 0⟩]] 1 1) [⟨200, 0, 0⟩] 1 1).1.motion_mask.getD 0 0
       then { (([⟨200, 0, 0⟩] : List rgb).getD 0 ⟨0, 0, 0⟩) with
              r := min 255 ((([⟨200, 0, 0⟩] : List rgb).getD 0 ⟨0, 0, 0⟩).r + 127) }
       else ([⟨200, 0, 0⟩] : List rgb).getD 0 ⟨0, 0, 0⟩) :=
  (C7_compositor (runFrames [[⟨0, 0, 0⟩]] 1 1) [⟨200, 0, 0⟩] 1 1 (by decide) 0
    (by norm_num)).2.2

/-! ### Claim C6 -/

/-- C6 (confirmed): a pixel whose counter is 0 and whose colour distance
to the stored background estimate is ≥ 25.0 (squared distance ≥ 625) on
each of 101 consecutive processed frames keeps its background estimate
unchanged through the first 100 frames (counter counting 1..100), and on
the 101st frame the estimate is overwritten with that frame's pixel
colour and the counter is reset to 0. -/
theorem C6_adaptation (s0 : PixelState) (ps : List rgb) (h0 : s0.time = 0)
    (hlen : ps.length = 101)
    (hfar : ∀ k, k < 101 →
      625 ≤ dist2 (ps.getD k ⟨0, 0, 0⟩) (bgPixel (iterateDetect s0 (ps.take k)))) :
    (∀ k, k ≤ 100 →
      (iterateDetect s0 (ps.take k)).bg_r = s0.bg_r ∧
      (iterateDetect s0 (ps.take k)).bg_g = s0.bg_g ∧
      (iterateDetect s0 (ps.take k)).bg_b = s0.bg_b ∧
      (iterateDetect s0 (ps.take k)).time = k) ∧
    (iterateDetect s0 ps).bg_r = ((ps.getD 100 ⟨0, 0, 0⟩).r : ℚ) ∧
    (iterateDetect s0 ps).bg_g = ((ps.getD 100 ⟨0, 0, 0⟩).g : ℚ) ∧
    (iterateDetect s0 ps).bg_b = ((ps.getD 100 ⟨0, 0, 0⟩).b : ℚ) ∧
    (iterateDetect s0 ps).time = 0 := by
  have hstep : ∀ k, k < ps.length →
      iterateDetect s0 (ps.take (k + 1)) =
        (updatePixelState (iterateDetect s0 (ps.take k)) (ps.getD k ⟨0, 0, 0⟩)).1 := by
    intro k hk
    have hget : ps.getD k ⟨0, 0, 0⟩ = ps.get ⟨k, hk⟩ := by
      rw [List.getD_eq_getElem?_getD, List.getElem?_eq_getElem hk]
      rfl
    unfold iterateDetect
    rw [List.take_succ, List.getElem?_eq_getElem hk]
    rw [show (some ps[k]).toList = [ps[k]] from rfl]
    rw [List.foldl_append, List.foldl_cons, List.foldl_nil, hget]
    rfl
  have hpre : ∀ k, k ≤ 100 →
      iterateDetect s0 (ps.take k) = ⟨s0.bg_r, s0.bg_g, s0.bg_b, (k : ℤ)⟩ := by
    intro k
    induction k with
    | zero =>
      intro _
      rw [List.take_zero]
      show s0 = _
      obtain ⟨br, bgq, bb, t⟩ := s0
      dsimp only at h0 ⊢
      rw [h0]
      norm_num
    | succ k ih =>
      intro hk1
      have hk : k ≤ 100 := by omega
      rw [hstep k (by omega)]
      have hf := hfar k (by omega)
      rw [ih hk] at hf ⊢
      unfold updatePixelState
      rw [if_neg (not_lt.mpr hf), if_neg (by push_cast; omega)]
      show PixelState.mk _ _ _ ((k : ℤ) + 1) = _
      push_cast
      rfl
  have h100 := hpre 100 le_rfl
  have htake : ps.take 101 = ps := by
    rw [← hlen]
    exact List.take_length ps
  have hfinal : iterateDetect s0 ps =
      (updatePixelState (iterateDetect s0 (ps.take 100)) (ps.getD 100 ⟨0, 0, 0⟩)).1 := by
    rw [← hstep 100 (by omega), htake]
  refine ⟨fun k hk => by rw [hpre k hk]; exact ⟨rfl, rfl, rfl, rfl⟩, ?_⟩
  have hf := hfar 100 (by omega)
  rw [h100] at hf
  rw [hfinal, h100]
  unfold updatePixelState
  rw [if_neg (not_lt.mpr hf), if_pos (by norm_num)]
  exact ⟨rfl, rfl, rfl, rfl⟩

set_option maxRecDepth 400000 in
/-- C6 witness: the theorem at the concrete 101-frame run of the pixel
colour (200, 0, 0) against background (0, 0, 0) with counter 0: the
estimate is still (0, 0, 0) with counter 100 after 100 frames, and frame
101 installs (200, 0, 0) and resets the counter. -/
theorem C6_adaptation_witness :
    (iterateDetect ⟨0, 0, 0, 0⟩ (List.replicate 101 ⟨200, 0, 0⟩)).bg_r = 200 ∧
    (iterateDetect ⟨0, 0, 0, 0⟩ (List.replicate 101 ⟨200, 0, 0⟩)).time = 0 ∧
    (iterateDetect ⟨0, 0, 0, 0⟩ ((List.replicate 101 ⟨200, 0, 0⟩).take 100)).bg_r = 0 ∧
    (iterateDetect ⟨0, 0, 0, 0⟩ ((List.replicate 101 ⟨200, 0, 0⟩).take 100)).time = 100 := by
  have hc := C6_adaptation ⟨0, 0, 0, 0⟩ (List.replicate 101 ⟨200, 0, 0⟩) rfl (by decide)
    (by decide)
  refine ⟨?_, hc.2.2.2.2, (hc.1 100 le_rfl).1, (hc.1 100 le_rfl).2.2.2⟩
  rw [hc.2.1]
  decide

/-! ### Claim C8 -/

theorem getD_replicate_zero (n i : ℕ) : (List.replicate n (0 : ℚ)).getD i 0 = 0 := by
  rw [List.getD_eq_getElem?_getD, List.getElem?_replicate]
  split
  · rfl
  · rfl

theorem seedStates_time (frame : List rgb) (w h : ℕ) :
    ∀ s ∈ seedStates frame w h, s.time = 0 := by
  intro s hs
  unfold seedStates at hs
  obtain ⟨i, _, hfi⟩ := List.mem_map.mp hs
  exact hfi ▸ rfl

theorem bgPixel_seedStates (f1 : List rgb) (w h : ℕ) (i : ℕ) (hi : i < h * w) :
    bgPixel ((seedStates f1 w h).getD i ⟨0, 0, 0, 0⟩) = f1.getD i ⟨0, 0, 0⟩ := by
  rw [seedStates_getD f1 w h i hi]
  exact bgPixel_of_natCast _

/-- C8 (confirmed): if the second frame ever processed differs from the
first (seeding) frame by squared colour distance < 625 (distance < 25.0)
at every pixel, the second call's pipeline yields an all-zero motion mask
and leaves every pixel's counter at 0. -/
theorem C8_noise_insensitive (f1 f2 : List rgb) (w h : ℕ)
    (hclose : ∀ i, i < h * w →
      dist2 (f2.getD i ⟨0, 0, 0⟩) (f1.getD i ⟨0, 0, 0⟩) < 625) :
    (∀ i, (runFrames [f1, f2] w h).motion_mask.getD i 0 = 0) ∧
    ∀ s ∈ (runFrames [f1, f2] w h).pixel_states, s.time = 0 := by
  have hrun : runFrames [f1, f2] w h =
      (filter_impl (filter_impl ⟨[], []⟩ f1 w h).1 f2 w h).1 := rfl
  have hst1 : (filter_impl ⟨[], []⟩ f1 w h).1 =
      ⟨seedStates f1 w h, []⟩ := rfl
  rcases Nat.eq_zero_or_pos (h * w) with hzero | hpos
  · have hempty : seedStates f1 w h = [] := by
      unfold seedStates
      rw [hzero]
      rfl
    rw [hrun, hst1, hempty]
    have hseed2 : filter_impl ⟨[], ([] : List ℚ)⟩ f2 w h =
        ({ pixel_states := seedStates f2 w h, motion_mask := [] }, f2) := rfl
    rw [hseed2]
    exact ⟨fun i => rfl, fun s hs => seedStates_time f2 w h s hs⟩
  · have hne : seedStates f1 w h ≠ [] := by
      intro hcon
      have hl := length_seedStates f1 w h
      rw [hcon] at hl
      simp only [List.length_nil] at hl
      omega
    rw [hrun, hst1, filter_impl_running ⟨seedStates f1 w h, []⟩ f2 w h hne]
    have hdz : ∀ i, (differenceStep (seedStates f1 w h) f2
        (maskOrInit ⟨seedStates f1 w h, []⟩ w h) w h).2.getD i 0 = 0 := by
      intro i
      rcases lt_or_le i (h * w) with hi | hi
      · rw [differenceStep_mask_getD _ _ _ _ _ i hi]
        show (if 625 ≤ dist2 (f2.getD i ⟨0, 0, 0⟩)
            (bgPixel ((seedStates f1 w h).getD i ⟨0, 0, 0, 0⟩)) then _ else _) = 0
        rw [bgPixel_seedStates f1 w h i hi, if_neg (not_le.mpr (hclose i hi))]
        exact getD_replicate_zero (w * h) i
      · exact getD_default_of_le _ _ _ (by rw [length_differenceStep_mask]; exact hi)
    have hmz := applyDilation_zero
      (applyErosion (differenceStep (seedStates f1 w h) f2
        (maskOrInit ⟨seedStates f1 w h, []⟩ w h) w h).2 w h (max 3 (min w h / 100)))
      w h (max 3 (min w h / 100))
      (applyErosion_zero _ w h (max 3 (min w h / 100)) hdz)
    constructor
    · intro i
      show (finalMask ⟨seedStates f1 w h, []⟩ f2 w h).getD i 0 = 0
      unfold finalMask applyMorphologicalOpening
      exact applyHysteresisThresholding_zero _ w h 4 30 (by norm_num) (by norm_num) hmz i
    · intro s hs
      have hs' : s ∈ (differenceStep (seedStates f1 w h) f2
          (maskOrInit ⟨seedStates f1 w h, []⟩ w h) w h).1 := hs
      unfold differenceStep at hs'
      obtain ⟨i, hi, hfi⟩ := List.mem_map.mp hs'
      rw [List.mem_range] at hi
      rw [← hfi]
      show (updatePixelState ((seedStates f1 w h).getD i ⟨0, 0, 0, 0⟩)
        (f2.getD i ⟨0, 0, 0⟩)).1.time = 0
      unfold updatePixelState
      rw [bgPixel_seedStates f1 w h i hi, if_pos (hclose i hi)]

/-- C8 witness: the theorem at two identical 1×1 frames. -/
theorem C8_noise_insensitive_witness :
    (runFrames [[⟨10, 20, 30⟩], [⟨10, 20, 30⟩]] 1 1).motion_mask.getD 0 0 = 0 ∧
    ((runFrames [[⟨10, 20, 30⟩], [⟨10, 20, 30⟩]] 1 1).pixel_states.getD 0
      ⟨0, 0, 0, 0⟩).time = 0 := by
  have hc := C8_noise_insensitive [⟨10, 20, 30⟩] [⟨10, 20, 30⟩] 1 1 (by decide)
  exact ⟨hc.1 0, hc.2 _ (by decide)⟩

/-! ### Claim C9 -/

theorem updatePixelState_time_range (s : PixelState) (p : rgb) (h0 : 0 ≤ s.time) :
    0 ≤ (updatePixelState s p).1.time ∧ (updatePixelState s p).1.time ≤ 100 := by
  unfold updatePixelState
  by_cases hd : dist2 p (bgPixel s) < 625
  · rw [if_pos hd]
    exact ⟨le_refl 0, by norm_num⟩
  · rw [if_neg hd]
    by_cases ht : 100 < s.time + 1
    · rw [if_pos ht]
      exact ⟨le_refl 0, by norm_num⟩
    · rw [if_neg ht]
      constructor
      · show 0 ≤ s.time + 1
        omega
      · show s.time + 1 ≤ 100
        omega

/-- C9 (confirmed): after every completed sequence of calls starting from
the empty process state, every pixel's frames-since-reset counter lies in
[0, 100]: it is seeded at 0, reset when the distance is below 25.0, and
an increment past 100 is reset to 0 within the same step. -/
theorem C9_counter_range (frames : List (List rgb)) (w h : ℕ) :
    ∀ s ∈ (runFrames frames w h).pixel_states, 0 ≤ s.time ∧ s.time ≤ 100 := by
  suffices key : ∀ (fs : List (List rgb)) (st : FilterState),
      (∀ s ∈ st.pixel_states, 0 ≤ s.time ∧ s.time ≤ 100) →
      ∀ s ∈ (fs.foldl (fun st f => (filter_impl st f w h).1) st).pixel_states,
        0 ≤ s.time ∧ s.time ≤ 100 by
    exact key frames ⟨[], []⟩ (fun s hs => absurd hs (List.not_mem_nil s))
  intro fs
  induction fs with
  | nil => exact fun st hst => hst
  | cons f t ih =>
    intro st hst
    rw [List.foldl_cons]
    apply ih
    intro s hs
    unfold filter_impl at hs
    by_cases he : st.pixel_states.isEmpty = true
    · rw [if_pos he] at hs
      have ht0 := seedStates_time f w h s hs
      rw [ht0]
      exact ⟨le_refl 0, by norm_num⟩
    · rw [if_neg he] at hs
      have hs' : s ∈ (differenceStep st.pixel_states f (maskOrInit st w h) w h).1 := hs
      unfold differenceStep at hs'
      obtain ⟨i, _, hfi⟩ := List.mem_map.mp hs'
      rw [← hfi]
      apply updatePixelState_time_range
      rcases lt_or_le i st.pixel_states.length with hlt | hge
      · exact (hst _ (getD_mem_of_lt _ _ _ hlt)).1
      · rw [getD_default_of_le _ _ _ hge]

/-- C9 witness: the counter of the only pixel after one seeding frame. -/
theorem C9_counter_range_witness :
    0 ≤ ((runFrames [[⟨5, 5, 5⟩]] 1 1).pixel_states.getD 0 ⟨0, 0, 0, 0⟩).time ∧
    ((runFrames [[⟨5, 5, 5⟩]] 1 1).pixel_states.getD 0 ⟨0, 0, 0, 0⟩).time ≤ 100 :=
  C9_counter_range [[⟨5, 5, 5⟩]] 1 1 _ (by decide)

/-! ### Claim C10 -/

theorem updatePixelState_bg (s : PixelState) (p : rgb)
    (hs : (∃ n : ℕ, n ≤ 255 ∧ s.bg_r = (n : ℚ)) ∧ (∃ n : ℕ, n ≤ 255 ∧ s.bg_g = (n : ℚ)) ∧
          (∃ n : ℕ, n ≤ 255 ∧ s.bg_b = (n : ℚ)))
    (hp : p.r ≤ 255 ∧ p.g ≤ 255 ∧ p.b ≤ 255) :
    (∃ n : ℕ, n ≤ 255 ∧ (updatePixelState s p).1.bg_r = (n : ℚ)) ∧
    (∃ n : ℕ, n ≤ 255 ∧ (updatePixelState s p).1.bg_g = (n : ℚ)) ∧
    (∃ n : ℕ, n ≤ 255 ∧ (updatePixelState s p).1.bg_b = (n : ℚ)) := by
  unfold updatePixelState
  by_cases hd : dist2 p (bgPixel s) < 625
  · rw [if_pos hd]
    exact hs
  · rw [if_neg hd]
    by_cases ht : 100 < s.time + 1
    · rw [if_pos ht]
      exact ⟨⟨p.r, hp.1, rfl⟩, ⟨p.g, hp.2.1, rfl⟩, ⟨p.b, hp.2.2, rfl⟩⟩
    · rw [if_neg ht]
      exact hs

theorem frame_getD_bounded (f : List rgb)
    (hf : ∀ p ∈ f, p.r ≤ 255 ∧ p.g ≤ 255 ∧ p.b ≤ 255) (i : ℕ) :
    (f.getD i ⟨0, 0, 0⟩).r ≤ 255 ∧ (f.getD i ⟨0, 0, 0⟩).g ≤ 255 ∧
    (f.getD i ⟨0, 0, 0⟩).b ≤ 255 := by
  rcases lt_or_le i f.length with hlt | hge
  · exact hf _ (getD_mem_of_lt f i _ hlt)
  · rw [getD_default_of_le f i _ hge]
    exact ⟨by norm_num, by norm_num, by norm_num⟩

/-- C10 (confirmed): starting from the empty process state and feeding
frames whose channels are genuine bytes (≤ 255), every stored background
channel estimate is at all times an exact integer in [0, 255] — it is
only ever assigned from 8-bit channel values at seeding and adaptation —
and therefore the `uint8_t` truncation applied before the distance
computation never changes its value. -/
theorem C10_bg_integer (frames : List (List rgb)) (w h : ℕ)
    (hbytes : ∀ f ∈ frames, ∀ p ∈ f, p.r ≤ 255 ∧ p.g ≤ 255 ∧ p.b ≤ 255) :
    ∀ s ∈ (runFrames frames w h).pixel_states,
      (∃ n : ℕ, n ≤ 255 ∧ s.bg_r = (n : ℚ)) ∧
      (∃ n : ℕ, n ≤ 255 ∧ s.bg_g = (n : ℚ)) ∧
      (∃ n : ℕ, n ≤ 255 ∧ s.bg_b = (n : ℚ)) ∧
      ((trunc8 s.bg_r : ℚ) = s.bg_r ∧ (trunc8 s.bg_g : ℚ) = s.bg_g ∧
       (trunc8 s.bg_b : ℚ) = s.bg_b) := by
  suffices key : ∀ (fs : List (List rgb)) (st : FilterState),
      (∀ f ∈ fs, ∀ p ∈ f, p.r ≤ 255 ∧ p.g ≤ 255 ∧ p.b ≤ 255) →
      (∀ s ∈ st.pixel_states,
        (∃ n : ℕ, n ≤ 255 ∧ s.bg_r = (n : ℚ)) ∧ (∃ n : ℕ, n ≤ 255 ∧ s.bg_g = (n : ℚ)) ∧
        (∃ n : ℕ, n ≤ 255 ∧ s.bg_b = (n : ℚ))) →
      ∀ s ∈ (fs.foldl (fun st f => (filter_impl st f w h).1) st).pixel_states,
        (∃ n : ℕ, n ≤ 255 ∧ s.bg_r = (n : ℚ)) ∧ (∃ n : ℕ, n ≤ 255 ∧ s.bg_g = (n : ℚ)) ∧
        (∃ n : ℕ, n ≤ 255 ∧ s.bg_b = (n : ℚ)) by
    intro s hs
    obtain ⟨⟨n1, hn1, he1⟩, ⟨n2, hn2, he2⟩, ⟨n3, hn3, he3⟩⟩ :=
      key frames ⟨[], []⟩ hbytes (fun s hs => absurd hs (List.not_mem_nil s)) s hs
    refine ⟨⟨n1, hn1, he1⟩, ⟨n2, hn2, he2⟩, ⟨n3, hn3, he3⟩, ?_, ?_, ?_⟩
    · rw [he1, trunc8_natCast]
    · rw [he2, trunc8_natCast]
    · rw [he3, trunc8_natCast]
  intro fs
  induction fs with
  | nil => exact fun st _ hst => hst
  | cons f t ih =>
    intro st hfs hst
    rw [List.foldl_cons]
    apply ih
    · exact fun g hg => hfs g (List.mem_cons_of_mem f hg)
    · have hfb := hfs f (List.mem_cons_self f t)
      intro s hs
      unfold filter_impl at hs
      by_cases he : st.pixel_states.isEmpty = true
      · rw [if_pos he] at hs
        unfold seedStates at hs
        obtain ⟨i, _, hfi⟩ := List.mem_map.mp hs
        rw [← hfi]
        have hb := frame_getD_bounded f hfb i
        exact ⟨⟨_, hb.1, rfl⟩, ⟨_, hb.2.1, rfl⟩, ⟨_, hb.2.2, rfl⟩⟩
      · rw [if_neg he] at hs
        have hs' : s ∈ (differenceStep st.pixel_states f (maskOrInit st w h) w h).1 := hs
        unfold differenceStep at hs'
        obtain ⟨i, _, hfi⟩ := List.mem_map.mp hs'
        rw [← hfi]
        apply updatePixelState_bg
        · rcases lt_or_le i st.pixel_states.length with hlt | hge
          · exact hst _ (getD_mem_of_lt _ _ _ hlt)
          · rw [getD_default_of_le _ _ _ hge]
            exact ⟨⟨0, by norm_num, rfl⟩, ⟨0, by norm_num, rfl⟩, ⟨0, by norm_num, rfl⟩⟩
        · exact frame_getD_bounded f hfb i

/-- C10 witness: the invariant at the only pixel after a 1×1 seeding
frame. -/
theorem C10_bg_integer_witness :
    (∃ n : ℕ, n ≤ 255 ∧
      ((runFrames [[⟨7, 8, 9⟩]] 1 1).pixel_states.getD 0 ⟨0, 0, 0, 0⟩).bg_r = (n : ℚ)) ∧
    (∃ n : ℕ, n ≤ 255 ∧
      ((runFrames [[⟨7, 8, 9⟩]] 1 1).pixel_states.getD 0 ⟨0, 0, 0, 0⟩).bg_g = (n : ℚ)) ∧
    (∃ n : ℕ, n ≤ 255 ∧
      ((runFrames [[⟨7, 8, 9⟩]] 1 1).pixel_states.getD 0 ⟨0, 0, 0, 0⟩).bg_b = (n : ℚ)) ∧
    ((trunc8 ((runFrames [[⟨7, 8, 9⟩]] 1 1).pixel_states.getD 0 ⟨0, 0, 0, 0⟩).bg_r : ℚ) =
        ((runFrames [[⟨7, 8, 9⟩]] 1 1).pixel_states.getD 0 ⟨0, 0, 0, 0⟩).bg_r ∧
     (trunc8 ((runFrames [[⟨7, 8, 9⟩]] 1 1).pixel_states.getD 0 ⟨0, 0, 0, 0⟩).bg_g : ℚ) =
        ((runFrames [[⟨7, 8, 9⟩]] 1 1).pixel_states.getD 0 ⟨0, 0, 0, 0⟩).bg_g ∧
     (trunc8 ((runFrames [[⟨7, 8, 9⟩]] 1 1).pixel_states.getD 0 ⟨0, 0, 0, 0⟩).bg_b : ℚ) =
        ((runFrames [[⟨7, 8, 9⟩]] 1 1).pixel_states.getD 0 ⟨0, 0, 0, 0⟩).bg_b) :=
  C10_bg_integer [[⟨7, 8, 9⟩]] 1 1 (by decide) _ (by decide)
